import Mathlib

/-!
Verification of the training-orchestration and threshold-optimization engine of
the iMet multi-label classifier (src/imet/main.py) against its specification.

The Python source is shallowly embedded: matrices become lists of rows,
probabilities and losses become rationals (modelling the real-number semantics
of the float expressions), `float('inf')` becomes the top element of
`WithTop ℚ`, and the stateful epoch loop becomes a step function on an explicit
state record driven by a stream of per-epoch events.
-/

namespace IMet

/-! ### LossReducer: `_reduce_loss` (src/imet/main.py lines 374-375)

`def _reduce_loss(loss): return loss.sum() / loss.shape[0]`
applied to a per-example loss vector of length B. -/

def _reduce_loss (loss : List ℚ) : ℚ :=
  loss.sum / (loss.length : ℚ)

/-! ### Backpropagated quantity (src/imet/main.py lines 260-262)

`loss = _reduce_loss(criterion(outputs, targets))`
`batch_size = inputs.size(0)`
`(batch_size * loss).backward()`
The criterion is elementwise, so `batch_size` equals the length of the
per-example loss vector. -/

def backward_quantity (loss : List ℚ) : ℚ :=
  (loss.length : ℚ) * _reduce_loss loss

/-! ### LearningRateController: scheduled policies (src/imet/main.py lines 210-228)

`slope = 0.9 / args.schedule_length`; the `one_cycle` closure reads the global
`step` counter; the `linear` closure additionally captures `step_first`, the
step at which the policy was instantiated. Python integer subtraction can go
negative, hence subtraction is performed after casting to ℚ. -/

def lr_func_one_cycle (schedule_length step : ℕ) : ℚ :=
  let slope : ℚ := 9 / 10 / (schedule_length : ℚ)
  if step < schedule_length then
    slope * (step : ℚ) + 1 / 10
  else if step ≤ schedule_length * 2 then
    slope * ((schedule_length : ℚ) - (step : ℚ)) + 1
  else
    1 / 10 * slope * (2 * (schedule_length : ℚ) - (step : ℚ)) + 1 / 10

def lr_func_linear (schedule_length step_first step : ℕ) : ℚ :=
  let slope : ℚ := 9 / 10 / (schedule_length : ℚ);
  -slope * ((step : ℚ) - (step_first : ℚ)) + 1

/-! ### TrainingLoop: the epoch loop of `train` (src/imet/main.py lines 188-306)

The loop is modelled for the patience-based configuration
(`args.scheduler == 'none'`), which is the configuration all loop claims are
about.  Forward/backward computation, the model and the data loader are
external collaborators: each epoch is summarized by an event saying either
that the batch loop was interrupted by an external signal after advancing the
global step counter by `steps_done`, or that the epoch completed, advancing
the step counter by `steps_done` and producing validation loss `valid_loss`.
`float('inf')` is modelled by `⊤ : WithTop ℚ`.  `save` (lines 233-238) appends
a checkpoint record; the epoch body (lines 254-299) and the
`except KeyboardInterrupt` handler (lines 300-305) become `runEpoch`; the
`for epoch in range(epoch, n_epochs + 1)` loop with its final `return True`
becomes `runLoop`, whose fuel is the number of epochs left in the range. -/

structure Checkpoint where
  epoch : ℕ
  step : ℕ
  best_valid_loss : WithTop ℚ
deriving DecidableEq

structure TrainState (τ : Type) where
  epoch : ℕ
  step : ℕ
  best_valid_loss : WithTop ℚ
  lr : ℚ
  lr_changes : ℕ
  lr_reset_epoch : ℕ
  valid_losses : List ℚ
  optimizer : τ
  saves : List Checkpoint
deriving DecidableEq

inductive EpochEvent where
  | interrupted (steps_done : ℕ)
  | completed (steps_done : ℕ) (valid_loss : ℚ)

/-- Python's trailing slice `l[-n:]` (for `valid_losses[-patience:]` on line 290
and `argsorted[:, -top_n:]` on line 368): the whole list when `n = 0`,
otherwise the last `min n (length l)` elements. -/
def negTail {α : Type} (l : List α) (n : ℕ) : List α :=
  if n = 0 then l else l.drop (l.length - n)

/-- Python's `min` on a list, used on a non-empty list at line 290 (the `[]`
case never arises there: `valid_losses` already contains the current epoch's
loss). -/
def minList : List ℚ → ℚ
  | [] => 0
  | x :: xs => xs.foldl min x

/-- One iteration of the epoch loop body (src/imet/main.py lines 254-305) in
the `scheduler == 'none'` configuration.  Returns the updated state and
`some b` when the iteration returns from `train` with result `b` (`break`
followed by `return True`, or `return False` on interruption), `none` when the
loop proceeds to the next epoch. -/
def runEpoch {τ : Type} (patience max_lr_changes : ℕ) (init_optimizer : ℚ → τ)
    (st : TrainState τ) : EpochEvent → TrainState τ × Option Bool
  | .interrupted d =>
    ({ st with
        step := st.step + d,
        saves := st.saves ++ [⟨st.epoch, st.step + d, st.best_valid_loss⟩] }, some false)
  | .completed d valid_loss =>
    let st1 : TrainState τ :=
      { st with
          step := st.step + d,
          saves := st.saves ++ [⟨st.epoch + 1, st.step + d, st.best_valid_loss⟩],
          valid_losses := st.valid_losses ++ [valid_loss] }
    if (valid_loss : WithTop ℚ) < st1.best_valid_loss then
      ({ st1 with best_valid_loss := (valid_loss : WithTop ℚ) }, none)
    else if patience ≠ 0 ∧ (patience : ℤ) < (st1.epoch : ℤ) - (st1.lr_reset_epoch : ℤ) ∧
        st1.best_valid_loss < (minList (negTail st1.valid_losses patience) : WithTop ℚ) then
      if max_lr_changes < st1.lr_changes + 1 then
        ({ st1 with lr_changes := st1.lr_changes + 1 }, some true)
      else
        ({ st1 with
            lr_changes := st1.lr_changes + 1,
            lr := st1.lr / 5,
            lr_reset_epoch := st1.epoch,
            optimizer := init_optimizer (st1.lr / 5) }, none)
    else (st1, none)

/-- The epoch loop `for epoch in range(epoch, n_epochs + 1)` followed by
`return True`; `fuel` is `n_epochs + 1 - epoch`, the number of epochs left. -/
def runLoop {τ : Type} (patience max_lr_changes : ℕ) (init_optimizer : ℚ → τ)
    (events : ℕ → EpochEvent) : ℕ → TrainState τ → TrainState τ × Bool
  | 0, st => (st, true)
  | fuel + 1, st =>
    match runEpoch patience max_lr_changes init_optimizer st (events st.epoch) with
    | (st', some b) => (st', b)
    | (st', none) =>
        runLoop patience max_lr_changes init_optimizer events fuel
          { st' with epoch := st'.epoch + 1 }

/-- Fresh-run initial state (src/imet/main.py lines 194, 204-208, 242-243):
epoch 1, step 0, `best_valid_loss = float('inf')`, no decays yet,
`lr_reset_epoch = epoch`, optimizer freshly created at the base rate. -/
def initState {τ : Type} (lr0 : ℚ) (opt0 : τ) : TrainState τ :=
  ⟨1, 0, ⊤, lr0, 0, 1, [], opt0, []⟩

def countOnes (l : List Bool) : ℕ := l.countP (fun b => b)

/-- Modelled from the spec: `sklearn.metrics.fbeta_score(y_true, y_pred,
beta=2, average='samples')` is library code outside this repository.  Per the
spec, it is "a sample-averaged F-measure with recall weighted more than
precision (weighting factor fixed at 2)" and "rows with zero true-positives
and zero predicted-positives are treated as score 0 for that sample with
warnings suppressed (degenerate case must not raise)".  Per row,
F₂ = (1+2²)·tp / ((1+2²)·tp + 2²·fn + fp) = 5·tp / (5·tp + 4·fn + fp); a zero
denominator yields 0.  The function is total: the degenerate case produces a
value, never an exception. -/
def fbeta2Row (y_true y_pred : List Bool) : ℚ :=
  let tp := countOnes (List.zipWith (fun t p => t && p) y_true y_pred)
  let fp := countOnes (List.zipWith (fun t p => !t && p) y_true y_pred)
  let fn' := countOnes (List.zipWith (fun t p => t && !p) y_true y_pred)
  if 5 * tp + 4 * fn' + fp = 0 then 0
  else ((5 * tp : ℕ) : ℚ) / ((5 * tp + 4 * fn' + fp : ℕ) : ℚ)

/-- `get_score` (src/imet/main.py lines 327-331): the sample-averaged F₂
score of the binarized predictions against the targets — the per-row scores
averaged over the number of rows of `y_true` — with `UndefinedMetricWarning`
suppressed. -/
def get_score (y_true y_pred : List (List Bool)) : ℚ :=
  (List.zipWith fbeta2Row y_true y_pred).sum / (y_true.length : ℚ)

/-! ### LabelBinarizer: `binarize_prediction` and `_make_mask`
(src/imet/main.py lines 353-371)

`argsorted = probabilities.argsort(axis=1)` returns, per row, the class
indices sorted by ascending probability; `_make_mask(argsorted, top_n)` takes
the trailing slice `argsorted[:, -top_n:]`, flattens it row-major
(`col_indices`), computes `row_indices = [i // top_n for i in ...]` — a
`ZeroDivisionError` when `top_n == 0` and the slice is non-empty — and
scatters ones at those (row, column) positions into a zero matrix shaped like
`argsorted`.  `binarize_prediction` asserts the column count equals the class
count `N_CLASSES` and returns `(max_mask & (probabilities > threshold)) |
min_mask`.

`N_CLASSES` is defined in the dataset module, which is not among the provided
sources; modelled from the spec ("the expected class count"), it is kept
abstract as the parameter `nClasses`.  Exceptions are modelled by `Option`:
`none` is a raised error. -/

def argsortRow (row : List ℚ) : List ℕ :=
  List.insertionSort (fun i j => row.getD i 0 ≤ row.getD j 0) (List.range row.length)

def flatCols (argsorted : List (List ℕ)) (top_n : ℕ) : List ℕ :=
  (argsorted.map (fun r => negTail r top_n)).flatten

def rowIdx (n top_n : ℕ) : List ℕ :=
  (List.range n).map (fun k => k / top_n)

def maskPairs (argsorted : List (List ℕ)) (top_n : ℕ) : List (ℕ × ℕ) :=
  List.zip (rowIdx (flatCols argsorted top_n).length top_n) (flatCols argsorted top_n)

def _make_mask (argsorted : List (List ℕ)) (top_n : ℕ) : Option (List (List Bool)) :=
  if top_n = 0 ∧ flatCols argsorted top_n ≠ [] then none
  else some (argsorted.enum.map (fun p =>
    (List.range p.2.length).map (fun j => decide ((p.1, j) ∈ maskPairs argsorted top_n))))

def binarize_prediction (nClasses : ℕ) (probabilities : List (List ℚ)) (threshold : ℚ)
    (min_labels max_labels : ℕ) : Option (List (List Bool)) :=
  if ∀ r ∈ probabilities, r.length = nClasses then
    match _make_mask (probabilities.map argsortRow) max_labels,
        _make_mask (probabilities.map argsortRow) min_labels with
    | some max_mask, some min_mask =>
      some (List.zipWith (List.zipWith (fun a b => a || b))
        (List.zipWith (List.zipWith (fun a b => a && b)) max_mask
          (probabilities.map (fun r => r.map (fun p => decide (threshold < p)))))
        min_mask)
    | _, _ => none
  else none

/-! ### Lemmas and claim theorems -/

/-- Claim C9: for every non-empty per-example loss vector of length B ≥ 1, the
loss reducer returns `sum(loss) / B` (it is a pure function, hence side-effect
free); doubling every element doubles the result, and a vector of B copies of
`c` reduces to `c`. -/
theorem C9_reduce_loss_spec (l : List ℚ) (B : ℕ) (c : ℚ)
    (hl : 1 ≤ l.length) (hB : 1 ≤ B) :
    _reduce_loss l = l.sum / (l.length : ℚ) ∧
    _reduce_loss (l.map (fun x => 2 * x)) = 2 * _reduce_loss l ∧
    _reduce_loss (List.replicate B c) = c := by
  refine ⟨rfl, ?_, ?_⟩
  · have hsum : (l.map (fun x => 2 * x)).sum = 2 * l.sum := by
      have := List.sum_map_mul_left l (fun x => x) (2 : ℚ)
      simpa using this
    simp only [_reduce_loss, hsum, List.length_map]
    ring
  · have hB0 : ((B : ℚ)) ≠ 0 := by
      exact_mod_cast Nat.one_le_iff_ne_zero.mp hB
    simp only [_reduce_loss, List.sum_replicate, List.length_replicate, nsmul_eq_mul]
    field_simp

/-- Witness for C9 at the concrete input l = [2, 4], B = 3, c = 7. -/
theorem C9_reduce_loss_spec_witness :
    _reduce_loss (List.replicate 3 (7 : ℚ)) = 7 :=
  (C9_reduce_loss_spec [(2 : ℚ), 4] 3 7 (by decide) (by decide)).2.2

/-- Claim C10: for every training batch of size B ≥ 1, the quantity the loop
backpropagates equals B times the reduced loss, which equals the un-normalized
sum of the per-example losses. -/
theorem C10_backward_quantity_spec (l : List ℚ) (hl : 1 ≤ l.length) :
    backward_quantity l = (l.length : ℚ) * _reduce_loss l ∧
    backward_quantity l = l.sum := by
  refine ⟨rfl, ?_⟩
  have h0 : ((l.length : ℚ)) ≠ 0 := by
    exact_mod_cast Nat.one_le_iff_ne_zero.mp hl
  simp only [backward_quantity, _reduce_loss]
  field_simp

/-- Witness for C10 at the concrete input l = [1, 2, 3]. -/
theorem C10_backward_quantity_spec_witness :
    1 ≤ [(1 : ℚ), 2, 3].length ∧ backward_quantity [(1 : ℚ), 2, 3] = [(1 : ℚ), 2, 3].sum :=
  ⟨by decide, (C10_backward_quantity_spec [(1 : ℚ), 2, 3] (by decide)).2⟩

/-- Claim C3: for the `one_cycle` scheduler with schedule length L ≥ 1 and
slope = 0.9/L, the multiplier at global step s equals `slope*s + 0.1` when
s < L, `slope*(L-s) + 1` when L ≤ s ≤ 2L, and `0.1*slope*(2L-s) + 0.1`
otherwise; in particular it is 0.1 at step 0, 1.0 at step L and 0.1 at
step 2L. -/
theorem C3_one_cycle_spec (L s : ℕ) (hL : 0 < L) :
    (s < L → lr_func_one_cycle L s = 9 / 10 / (L : ℚ) * (s : ℚ) + 1 / 10) ∧
    (L ≤ s → s ≤ 2 * L →
      lr_func_one_cycle L s = 9 / 10 / (L : ℚ) * ((L : ℚ) - (s : ℚ)) + 1) ∧
    (2 * L < s →
      lr_func_one_cycle L s = 1 / 10 * (9 / 10 / (L : ℚ)) * (2 * (L : ℚ) - (s : ℚ)) + 1 / 10) ∧
    lr_func_one_cycle L 0 = 1 / 10 ∧
    lr_func_one_cycle L L = 1 ∧
    lr_func_one_cycle L (2 * L) = 1 / 10 := by
  have hLQ : ((L : ℚ)) ≠ 0 := by exact_mod_cast hL.ne'
  refine ⟨?_, ?_, ?_, ?_, ?_, ?_⟩
  · intro h
    simp [lr_func_one_cycle, h]
  · intro h1 h2
    have hn : ¬ s < L := not_lt.mpr h1
    have h2' : s ≤ L * 2 := by omega
    simp [lr_func_one_cycle, hn, h2']
  · intro h
    have hn1 : ¬ s < L := by omega
    have hn2 : ¬ s ≤ L * 2 := by omega
    simp [lr_func_one_cycle, hn1, hn2]
  · simp [lr_func_one_cycle, hL]
  · have hn : ¬ L < L := lt_irrefl L
    have h2 : L ≤ L * 2 := by omega
    simp [lr_func_one_cycle, hn, h2]
  · have hn : ¬ 2 * L < L := by omega
    have h2 : 2 * L ≤ L * 2 := by omega
    simp only [lr_func_one_cycle, hn, if_false, h2, if_true, Nat.cast_mul, Nat.cast_ofNat]
    field_simp
    ring

/-- Witness for C3 at L = 2, s = 4 = 2L: the multiplier is 0.1. -/
theorem C3_one_cycle_spec_witness :
    lr_func_one_cycle 2 (2 * 2) = 1 / 10 :=
  (C3_one_cycle_spec 2 4 (by decide)).2.2.2.2.2

/-- Claim C4 (amended): for the `linear` scheduler with schedule length L ≥ 1
and slope = 0.9/L, the multiplier is 1.0 at the instantiation step, equals
`1 - 0.9*d/L` after d further steps — hence 0.1 (not 0) after L further
steps — and is unbounded below. -/
theorem C4_linear_spec (L s0 : ℕ) (hL : 0 < L) :
    lr_func_linear L s0 s0 = 1 ∧
    lr_func_linear L s0 (s0 + L) = 1 / 10 ∧
    (∀ d : ℕ, lr_func_linear L s0 (s0 + d) = 1 - 9 / 10 / (L : ℚ) * (d : ℚ)) ∧
    (∀ M : ℚ, ∃ s : ℕ, lr_func_linear L s0 s < M) := by
  have hLQ : ((L : ℚ)) ≠ 0 := by exact_mod_cast hL.ne'
  have hform : ∀ d : ℕ, lr_func_linear L s0 (s0 + d) = 1 - 9 / 10 / (L : ℚ) * (d : ℚ) := by
    intro d
    simp only [lr_func_linear, Nat.cast_add]
    ring
  refine ⟨?_, ?_, hform, ?_⟩
  · have := hform 0
    simpa using this
  · have := hform L
    rw [this]
    field_simp
    ring
  · intro M
    set x : ℚ := (1 - M) * (10 * (L : ℚ)) / 9 with hx
    refine ⟨s0 + (⌈x⌉₊ + 1), ?_⟩
    rw [hform (⌈x⌉₊ + 1)]
    have hxd : x < ((⌈x⌉₊ + 1 : ℕ) : ℚ) := by
      have h1 : x ≤ (⌈x⌉₊ : ℚ) := Nat.le_ceil x
      have h2 : ((⌈x⌉₊ : ℚ)) < ((⌈x⌉₊ + 1 : ℕ) : ℚ) := by
        push_cast
        linarith
      linarith
    have hslope : (0 : ℚ) < 9 / 10 / (L : ℚ) := by
      have : (0 : ℚ) < (L : ℚ) := by exact_mod_cast hL
      positivity
    have hkey : 9 / 10 / (L : ℚ) * x = 1 - M := by
      rw [hx]
      field_simp
      ring
    have := mul_lt_mul_of_pos_left hxd hslope
    rw [hkey] at this
    linarith

/-- Witness for C4: at L = 9, s0 = 0, the multiplier at the instantiation step
is 1. -/
theorem C4_linear_spec_witness :
    lr_func_linear 9 0 0 = 1 :=
  (C4_linear_spec 9 0 (by decide)).1

/-- Counterexample to C4 as stated: with L = 9 and instantiation step 0, the
multiplier after L = 9 further steps is 0.1, not 0 — the schedule does not
reach 0 after L steps. -/
theorem C4_counterexample :
    lr_func_linear 9 0 9 = 1 / 10 ∧ lr_func_linear 9 0 9 ≠ 0 := by
  constructor
  · norm_num [lr_func_linear]
  · norm_num [lr_func_linear]

/-- Claim C7: when an external interrupt arrives during the batch loop, the
loop saves a checkpoint recording the current (incomplete) epoch number,
the current step and `best_valid_loss`, and returns the "did not converge"
result `False` to the caller; the interrupt is absorbed (the model is a total
function — the handler at src/imet/main.py lines 300-305 catches
`KeyboardInterrupt`), regardless of how many epochs were still scheduled. -/
theorem C7_interrupt_checkpoint {τ : Type} (p m : ℕ) (io' : ℚ → τ) (ev : ℕ → EpochEvent)
    (fuel : ℕ) (st : TrainState τ) (d : ℕ)
    (h : ev st.epoch = .interrupted d) :
    runLoop p m io' ev (fuel + 1) st =
      ({ st with
          step := st.step + d,
          saves := st.saves ++ [⟨st.epoch, st.step + d, st.best_valid_loss⟩] }, false) := by
  simp [runLoop, h, runEpoch]

/-- Claim C6: with `max_lr_changes = 2`, whenever a third decay event fires
(two decays already recorded and the decay condition holds again for the
epoch that just completed), the loop returns immediately with the normal
result `True` — no further epoch's batch loop is started, no matter how many
epochs or events remain.  Note the `break` precedes the division, so the
third event only increments the counter. -/
theorem C6_third_decay_stops {τ : Type} (p : ℕ) (io' : ℚ → τ) (ev : ℕ → EpochEvent)
    (fuel : ℕ) (st : TrainState τ) (d : ℕ) (vl : ℚ)
    (hev : ev st.epoch = .completed d vl)
    (hni : ¬ ((vl : WithTop ℚ) < st.best_valid_loss))
    (hp : p ≠ 0)
    (hep : (p : ℤ) < (st.epoch : ℤ) - (st.lr_reset_epoch : ℤ))
    (hmin : st.best_valid_loss < (minList (negTail (st.valid_losses ++ [vl]) p) : WithTop ℚ))
    (hch : st.lr_changes = 2) :
    runLoop p 2 io' ev (fuel + 1) st =
      ({ st with
          step := st.step + d,
          saves := st.saves ++ [⟨st.epoch + 1, st.step + d, st.best_valid_loss⟩],
          valid_losses := st.valid_losses ++ [vl],
          lr_changes := 3 }, true) := by
  simp only [runLoop, hev, runEpoch]
  rw [if_neg hni, if_pos ⟨hp, hep, hmin⟩, if_pos (by omega : 2 < st.lr_changes + 1)]
  simp [hch]

/-- Claim C5 (amended): in a fresh run with patience = 2, no scheduler, whose
first epoch sets the global best and whose next three consecutive epochs have
validation loss strictly above the global best, the loop performs no decay in
the first three epochs and exactly one decay on the third non-improving epoch
(epoch 4): the rate is divided by 5, a fresh optimizer is created by the same
`init_optimizer` closure over the same parameter list, and `lr_changes` = 1. -/
theorem C5_patience_decay {τ : Type} (io' : ℚ → τ) (lr0 : ℚ) (ev : ℕ → EpochEvent)
    (d1 d2 d3 d4 : ℕ) (v1 v2 v3 v4 : ℚ)
    (h1 : ev 1 = .completed d1 v1) (h2 : ev 2 = .completed d2 v2)
    (h3 : ev 3 = .completed d3 v3) (h4 : ev 4 = .completed d4 v4)
    (w2 : v1 < v2) (w3 : v1 < v3) (w4 : v1 < v4) :
    (runLoop 2 2 io' ev 3 (initState lr0 (io' lr0))).1.lr_changes = 0 ∧
    (runLoop 2 2 io' ev 3 (initState lr0 (io' lr0))).1.lr = lr0 ∧
    (runLoop 2 2 io' ev 4 (initState lr0 (io' lr0))).1.lr_changes = 1 ∧
    (runLoop 2 2 io' ev 4 (initState lr0 (io' lr0))).1.lr = lr0 / 5 ∧
    (runLoop 2 2 io' ev 4 (initState lr0 (io' lr0))).1.optimizer = io' (lr0 / 5) ∧
    (runLoop 2 2 io' ev 4 (initState lr0 (io' lr0))).2 = true := by
  have hn2 : ¬ ((v2 : WithTop ℚ) < ((v1 : ℚ) : WithTop ℚ)) := by
    rw [WithTop.coe_lt_coe]
    exact not_lt.mpr w2.le
  have hn3 : ¬ ((v3 : WithTop ℚ) < ((v1 : ℚ) : WithTop ℚ)) := by
    rw [WithTop.coe_lt_coe]
    exact not_lt.mpr w3.le
  have hn4 : ¬ ((v4 : WithTop ℚ) < ((v1 : ℚ) : WithTop ℚ)) := by
    rw [WithTop.coe_lt_coe]
    exact not_lt.mpr w4.le
  have hmin : ((v1 : ℚ) : WithTop ℚ) < ((min v3 v4 : ℚ) : WithTop ℚ) := by
    rw [WithTop.coe_lt_coe]
    exact lt_min w3 w4
  have s1 : ∀ f : ℕ, runLoop 2 2 io' ev (f + 1) (initState lr0 (io' lr0)) =
      runLoop 2 2 io' ev f
        (⟨2, 0 + d1, (v1 : WithTop ℚ), lr0, 0, 1, [v1], io' lr0, [⟨2, 0 + d1, ⊤⟩]⟩ : TrainState τ) := by
    intro f
    simp only [runLoop, initState, h1, runEpoch]
    rw [if_pos (WithTop.coe_lt_top v1)]
    simp
  have s2 : ∀ f : ℕ, runLoop 2 2 io' ev (f + 1)
      (⟨2, d1, (v1 : WithTop ℚ), lr0, 0, 1, [v1], io' lr0,
        [⟨2, d1, ⊤⟩]⟩ : TrainState τ) =
      runLoop 2 2 io' ev f
        (⟨3, d1 + d2, (v1 : WithTop ℚ), lr0, 0, 1, [v1, v2], io' lr0,
          [⟨2, d1, ⊤⟩, ⟨3, d1 + d2, (v1 : WithTop ℚ)⟩]⟩ : TrainState τ) := by
    intro f
    norm_num [runLoop, h2, runEpoch, hn2]
  have s3 : ∀ f : ℕ, runLoop 2 2 io' ev (f + 1)
      (⟨3, d1 + d2, (v1 : WithTop ℚ), lr0, 0, 1, [v1, v2], io' lr0,
        [⟨2, d1, ⊤⟩, ⟨3, d1 + d2, (v1 : WithTop ℚ)⟩]⟩ : TrainState τ) =
      runLoop 2 2 io' ev f
        (⟨4, d1 + d2 + d3, (v1 : WithTop ℚ), lr0, 0, 1, [v1, v2, v3], io' lr0,
          [⟨2, d1, ⊤⟩, ⟨3, d1 + d2, (v1 : WithTop ℚ)⟩,
           ⟨4, d1 + d2 + d3, (v1 : WithTop ℚ)⟩]⟩ : TrainState τ) := by
    intro f
    norm_num [runLoop, h3, runEpoch, hn3]
  have s4 : ∀ f : ℕ, runLoop 2 2 io' ev (f + 1)
      (⟨4, d1 + d2 + d3, (v1 : WithTop ℚ), lr0, 0, 1, [v1, v2, v3], io' lr0,
        [⟨2, d1, ⊤⟩, ⟨3, d1 + d2, (v1 : WithTop ℚ)⟩,
         ⟨4, d1 + d2 + d3, (v1 : WithTop ℚ)⟩]⟩ : TrainState τ) =
      runLoop 2 2 io' ev f
        (⟨5, d1 + d2 + d3 + d4, (v1 : WithTop ℚ), lr0 / 5, 1, 4, [v1, v2, v3, v4], io' (lr0 / 5),
          [⟨2, d1, ⊤⟩, ⟨3, d1 + d2, (v1 : WithTop ℚ)⟩,
           ⟨4, d1 + d2 + d3, (v1 : WithTop ℚ)⟩,
           ⟨5, d1 + d2 + d3 + d4, (v1 : WithTop ℚ)⟩]⟩ : TrainState τ) := by
    intro f
    norm_num [runLoop, h4, runEpoch, hn4, negTail, minList, w3, w4]
  have t1 : runLoop 2 2 io' ev 3 (initState lr0 (io' lr0)) =
      runLoop 2 2 io' ev 2
        (⟨2, d1, (v1 : WithTop ℚ), lr0, 0, 1, [v1], io' lr0,
          [⟨2, d1, ⊤⟩]⟩ : TrainState τ) := by
    have := s1 2
    simpa using this
  have t1' : runLoop 2 2 io' ev 4 (initState lr0 (io' lr0)) =
      runLoop 2 2 io' ev 3
        (⟨2, d1, (v1 : WithTop ℚ), lr0, 0, 1, [v1], io' lr0,
          [⟨2, d1, ⊤⟩]⟩ : TrainState τ) := by
    have := s1 3
    simpa using this
  have r3 : runLoop 2 2 io' ev 3 (initState lr0 (io' lr0)) =
      ((⟨4, d1 + d2 + d3, (v1 : WithTop ℚ), lr0, 0, 1, [v1, v2, v3], io' lr0,
        [⟨2, d1, ⊤⟩, ⟨3, d1 + d2, (v1 : WithTop ℚ)⟩,
         ⟨4, d1 + d2 + d3, (v1 : WithTop ℚ)⟩]⟩ : TrainState τ), true) := by
    rw [t1, s2 1, s3 0]
    rfl
  have r4 : runLoop 2 2 io' ev 4 (initState lr0 (io' lr0)) =
      ((⟨5, d1 + d2 + d3 + d4, (v1 : WithTop ℚ), lr0 / 5, 1, 4, [v1, v2, v3, v4], io' (lr0 / 5),
        [⟨2, d1, ⊤⟩, ⟨3, d1 + d2, (v1 : WithTop ℚ)⟩,
         ⟨4, d1 + d2 + d3, (v1 : WithTop ℚ)⟩,
         ⟨5, d1 + d2 + d3 + d4, (v1 : WithTop ℚ)⟩]⟩ : TrainState τ), true) := by
    rw [t1', s2 2, s3 1, s4 0]
    rfl
  exact ⟨by rw [r3], by rw [r3], by rw [r4], by rw [r4], by rw [r4], by rw [r4]⟩

/-- Counterexample to C5 as stated: a fresh run whose four epochs all have
validation loss 1.  Epoch 1 improves on `float('inf')`; epochs 2, 3, 4 do not
improve on the global best (their loss equals it), yet no decay event occurs
(`lr_changes` stays 0 and the rate is untouched) because the decay guard
requires the recent losses to strictly exceed the global best. -/
theorem C5_counterexample :
    (runLoop 2 2 (fun x : ℚ => x) (fun _ => EpochEvent.completed 0 1) 4
      (initState 1 ((fun x : ℚ => x) 1))).1.lr_changes = 0 ∧
    (runLoop 2 2 (fun x : ℚ => x) (fun _ => EpochEvent.completed 0 1) 4
      (initState 1 ((fun x : ℚ => x) 1))).1.lr = 1 := by
  constructor <;> decide

/-- Witness for C5 (amended): base rate 3, first-epoch loss 1, then three
epochs of loss 2. -/
theorem C5_patience_decay_witness :
    (runLoop 2 2 (fun x : ℚ => x)
      (fun e => if e = 1 then EpochEvent.completed 0 1 else EpochEvent.completed 0 2) 4
      (initState 3 ((fun x : ℚ => x) 3))).1.lr_changes = 1 :=
  (C5_patience_decay (fun x : ℚ => x) 3
    (fun e => if e = 1 then EpochEvent.completed 0 1 else EpochEvent.completed 0 2)
    0 0 0 0 1 2 2 2 rfl rfl rfl rfl (by norm_num) (by norm_num) (by norm_num)).2.2.1

/-- Witness for C6: a state at epoch 5 with two recorded decays and stale
losses triggers the third decay event and an immediate normal stop. -/
theorem C6_third_decay_stops_witness :
    runLoop 2 2 (fun x : ℚ => x) (fun _ => EpochEvent.completed 0 2) (6 + 1)
      (⟨5, 7, ((1 : ℚ) : WithTop ℚ), 1, 2, 1, [2, 2], (9 : ℚ), []⟩ : TrainState ℚ) =
      ((⟨5, 7, ((1 : ℚ) : WithTop ℚ), 1, 3, 1, [2, 2, 2], (9 : ℚ),
        [⟨6, 7, ((1 : ℚ) : WithTop ℚ)⟩]⟩ : TrainState ℚ), true) :=
  C6_third_decay_stops 2 (fun x : ℚ => x) (fun _ => EpochEvent.completed 0 2) 6
    (⟨5, 7, ((1 : ℚ) : WithTop ℚ), 1, 2, 1, [2, 2], (9 : ℚ), []⟩ : TrainState ℚ) 0 2
    rfl (by norm_num) (by norm_num) (by norm_num) (by norm_num [minList, negTail]) rfl

/-- Witness for C7: an interrupt at epoch 3 after 4 further steps. -/
theorem C7_interrupt_checkpoint_witness :
    runLoop 2 2 (fun x : ℚ => x) (fun _ => EpochEvent.interrupted 4) (2 + 1)
      (⟨3, 5, ⊤, 1, 0, 1, [], (0 : ℚ), []⟩ : TrainState ℚ) =
      ((⟨3, 9, ⊤, 1, 0, 1, [], (0 : ℚ), [⟨3, 9, ⊤⟩]⟩ : TrainState ℚ), false) :=
  C7_interrupt_checkpoint 2 2 (fun x : ℚ => x) (fun _ => EpochEvent.interrupted 4) 2
    (⟨3, 5, ⊤, 1, 0, 1, [], (0 : ℚ), []⟩ : TrainState ℚ) 4 rfl

/-- A list's sum is the element at any index plus the sum with that index
removed. -/
lemma sum_eraseIdx (l : List ℚ) : ∀ i : ℕ, i < l.length →
    l.sum = l.getD i 0 + (l.eraseIdx i).sum := by
  induction l with
  | nil => intro i h; simp at h
  | cons x xs ih =>
    intro i h
    cases i with
    | zero => simp
    | succ j =>
      have hj : j < xs.length := by simpa using h
      have := ih j hj
      simp [List.eraseIdx, this]
      ring

/-- Claim C8: for validation input whose row i has an all-zero binarized
prediction and an all-zero target, the metric evaluation yields a value (the
model of `fbeta_score` is total — no exception escapes, the warning being
suppressed), the degenerate row's F₂ score is 0, and the sample-averaged
score equals the sum of the remaining rows' scores divided by the number of
rows — i.e. the degenerate row contributes 0. -/
theorem C8_degenerate (T P : List (List Bool)) (i c : ℕ)
    (hlen : T.length = P.length) (hi : i < T.length)
    (ht : T.getD i [] = List.replicate c false)
    (hp : P.getD i [] = List.replicate c false) :
    fbeta2Row (T.getD i []) (P.getD i []) = 0 ∧
    get_score T P = ((List.zipWith fbeta2Row T P).eraseIdx i).sum / (T.length : ℚ) := by
  have hrow : fbeta2Row (T.getD i []) (P.getD i []) = 0 := by
    rw [ht, hp]
    simp [fbeta2Row, countOnes]
  refine ⟨hrow, ?_⟩
  have hzlen : i < (List.zipWith fbeta2Row T P).length := by
    rw [List.length_zipWith, hlen, min_self]
    omega
  have hget : (List.zipWith fbeta2Row T P).getD i 0 =
      fbeta2Row (T.getD i []) (P.getD i []) := by
    rw [List.getD_eq_getElem _ _ hzlen, List.getElem_zipWith]
    rw [List.getD_eq_getElem _ _ hi, List.getD_eq_getElem _ _ (by omega : i < P.length)]
  have hsum := sum_eraseIdx (List.zipWith fbeta2Row T P) i hzlen
  rw [get_score, hsum, hget, hrow]
  ring_nf

/-- Witness for C8: row 1 of a two-row validation set is all-zero in both
prediction and target. -/
theorem C8_degenerate_witness :
    fbeta2Row ([[true, false], [false, false]].getD 1 []) ([[true, true], [false, false]].getD 1 []) = 0 ∧
    get_score [[true, false], [false, false]] [[true, true], [false, false]] =
      ((List.zipWith fbeta2Row [[true, false], [false, false]] [[true, true], [false, false]]).eraseIdx 1).sum /
        (([[true, false], [false, false]] : List (List Bool)).length : ℚ) :=
  C8_degenerate [[true, false], [false, false]] [[true, true], [false, false]] 1 2
    rfl (by decide) rfl rfl

/-- Rewriting a mapped list as a map over the index range, reading elements
with `getD`. -/
lemma map_eq_range_map {α β : Type} (g : α → β) (d : α) :
    ∀ l : List α, l.map g = (List.range l.length).map (fun j => g (l.getD j d))
  | [] => rfl
  | x :: xs => by
    rw [List.map_cons, List.length_cons, List.range_succ_eq_map, List.map_cons,
      List.map_map, map_eq_range_map g d xs]
    simp

/-- `zipWith` of two maps over one index list is a single map. -/
lemma zipWith_map_same {α β γ δ : Type} (f : β → γ → δ) (g : α → β) (h : α → γ) :
    ∀ l : List α, List.zipWith f (l.map g) (l.map h) = l.map (fun x => f (g x) (h x))
  | [] => rfl
  | x :: xs => by
    simp [List.zipWith, zipWith_map_same f g h xs]

/-- Membership in the zip of a constant left list. -/
lemma mem_zip_replicate {a i j : ℕ} :
    ∀ c : List ℕ, ((i, j) ∈ List.zip (List.replicate c.length a) c ↔ i = a ∧ j ∈ c)
  | [] => by simp
  | x :: xs => by
    simp only [List.length_cons, List.replicate_succ, List.zip_cons_cons, List.mem_cons,
      Prod.mk.injEq, mem_zip_replicate xs]
    constructor
    · rintro (⟨rfl, rfl⟩ | ⟨rfl, hj⟩)
      · exact ⟨rfl, Or.inl rfl⟩
      · exact ⟨rfl, Or.inr hj⟩
    · rintro ⟨rfl, rfl | hj⟩
      · exact Or.inl ⟨rfl, rfl⟩
      · exact Or.inr ⟨rfl, hj⟩

/-- Dividing each index below m by m gives zeros. -/
lemma rowIdx_self (m : ℕ) : rowIdx m m = List.replicate m 0 := by
  apply List.eq_replicate_iff.mpr
  refine ⟨by simp [rowIdx], ?_⟩
  intro x hx
  rw [rowIdx] at hx
  obtain ⟨k, hk, rfl⟩ := List.mem_map.mp hx
  exact Nat.div_eq_of_lt (List.mem_range.mp hk)

/-- `argsortRow` is a permutation of the index range of its input. -/
lemma argsortRow_perm (row : List ℚ) :
    List.Perm (argsortRow row) (List.range row.length) :=
  List.perm_insertionSort _ _

lemma argsortRow_length (row : List ℚ) : (argsortRow row).length = row.length := by
  rw [(argsortRow_perm row).length_eq, List.length_range]

lemma argsortRow_nodup (row : List ℚ) : (argsortRow row).Nodup :=
  ((argsortRow_perm row).nodup_iff).mpr (List.nodup_range _)

lemma argsortRow_mem_lt {row : List ℚ} {x : ℕ} (hx : x ∈ argsortRow row) :
    x < row.length :=
  List.mem_range.mp ((argsortRow_perm row).subset hx)

lemma negTail_subset {α : Type} (l : List α) (n : ℕ) : negTail l n ⊆ l := by
  rw [negTail]
  split
  · exact fun x hx => hx
  · exact List.drop_subset _ _

lemma negTail_sublist {α : Type} (l : List α) (n : ℕ) :
    List.Sublist (negTail l n) l := by
  rw [negTail]
  split
  · exact List.Sublist.refl l
  · exact List.drop_sublist _ _

lemma negTail_length {α : Type} {l : List α} {n : ℕ} (h1 : n ≠ 0) (h2 : n ≤ l.length) :
    (negTail l n).length = n := by
  rw [negTail, if_neg h1, List.length_drop]
  omega

/-- The smaller trailing slice is contained in the larger one. -/
lemma negTail_mono {α : Type} (l : List α) {m n : ℕ} (hm : m ≠ 0) (hmn : m ≤ n) :
    negTail l m ⊆ negTail l n := by
  have hn : n ≠ 0 := by omega
  rw [negTail, negTail, if_neg hm, if_neg hn]
  exact List.drop_subset_drop_left l (by omega)

/-- Counting the members of a nodup list s inside `range C` gives `s.length`
when every member of s is below C. -/
lemma countP_range_mem {C : ℕ} {s : List ℕ} (hnd : s.Nodup)
    (hlt : ∀ x ∈ s, x < C) :
    (List.range C).countP (fun j => decide (j ∈ s)) = s.length := by
  rw [List.countP_eq_length_filter]
  set F := (List.range C).filter (fun j => decide (j ∈ s)) with hF
  have hFnd : F.Nodup := (List.nodup_range C).filter _
  have hFs : F ⊆ s := by
    intro x hx
    rw [hF, List.mem_filter] at hx
    exact of_decide_eq_true hx.2
  have hsF : s ⊆ F := by
    intro x hx
    rw [hF, List.mem_filter]
    exact ⟨List.mem_range.mpr (hlt x hx), decide_eq_true hx⟩
  exact Nat.le_antisymm ((hFnd.subperm hFs).length_le) ((hnd.subperm hsF).length_le)

/-- Membership in the zip of `row_indices` with `col_indices` built from
uniform chunks of positive size m (the clean case of `_make_mask`, where each
trailing slice has exactly `top_n` entries): the pair (i, j) occurs iff j
occurs in the i-th chunk. -/
lemma mem_chunk_pairs {m : ℕ} (hm : 0 < m) :
    ∀ (chunks : List (List ℕ)), (∀ c ∈ chunks, c.length = m) →
    ∀ i j : ℕ, ((i, j) ∈ List.zip (rowIdx chunks.flatten.length m) chunks.flatten ↔
      ∃ c, chunks[i]? = some c ∧ j ∈ c)
  | [], _, i, j => by simp [rowIdx]
  | c :: cs, hlen, i, j => by
    have hc : c.length = m := hlen c (List.mem_cons_self c cs)
    have hcs : ∀ c' ∈ cs, c'.length = m := fun c' h => hlen c' (List.mem_cons_of_mem c h)
    have hsplit : rowIdx ((c :: cs).flatten).length m =
        List.replicate c.length 0 ++ (rowIdx (cs.flatten).length m).map (fun x => x + 1) := by
      rw [List.flatten_cons, List.length_append, hc, rowIdx, List.range_add, List.map_append]
      congr 1
      · rw [show (List.range m).map (fun k => k / m) = rowIdx m m from rfl, rowIdx_self]
      · rw [List.map_map, rowIdx, List.map_map]
        apply List.map_congr_left
        intro k _
        simp only [Function.comp_apply]
        exact Nat.add_div_left k hm
    rw [hsplit, List.flatten_cons, List.zip_append (by simp [hc]), List.mem_append,
      mem_zip_replicate c, List.zip_map_left, List.mem_map]
    cases i with
    | zero =>
      simp only [List.getElem?_cons_zero, Option.some.injEq]
      constructor
      · rintro (⟨-, hj⟩ | ⟨⟨a, b⟩, _, heq⟩)
        · exact ⟨c, rfl, hj⟩
        · simp only [Prod.map, id_eq, Prod.mk.injEq] at heq
          omega
      · rintro ⟨c', rfl, hj⟩
        exact Or.inl ⟨trivial, hj⟩
    | succ i' =>
      have IH := mem_chunk_pairs hm cs hcs i' j
      simp only [List.getElem?_cons_succ]
      constructor
      · rintro (⟨h0, -⟩ | ⟨⟨a, b⟩, hab, heq⟩)
        · omega
        · simp only [Prod.map, id_eq, Prod.mk.injEq] at heq
          obtain ⟨ha, rfl⟩ := heq
          have : a = i' := by omega
          subst this
          exact IH.mp hab
      · intro h
        refine Or.inr ⟨(i', j), IH.mpr h, ?_⟩
        simp [Prod.map]

/-- In the clean case `1 ≤ top_n ≤ C` with all rows of length C, the scatter
positions of `_make_mask` are exactly: column j is marked in row i iff j lies
in the last `top_n` entries of row i of `argsorted`. -/
lemma maskPairs_clean {A : List (List ℕ)} {C top_n : ℕ} (h1 : top_n ≠ 0) (h2 : top_n ≤ C)
    (hA : ∀ r ∈ A, r.length = C) (i j : ℕ) :
    ((i, j) ∈ maskPairs A top_n ↔ ∃ r, A[i]? = some r ∧ j ∈ negTail r top_n) := by
  have hchunks : ∀ c ∈ A.map (fun r => negTail r top_n), c.length = top_n := by
    intro c hc
    obtain ⟨r, hr, rfl⟩ := List.mem_map.mp hc
    exact negTail_length h1 (by rw [hA r hr]; exact h2)
  rw [maskPairs, flatCols,
    mem_chunk_pairs (Nat.pos_of_ne_zero h1) _ hchunks i j]
  simp only [List.getElem?_map]
  constructor
  · rintro ⟨c, hc, hj⟩
    obtain ⟨r, hr, rfl⟩ := Option.map_eq_some'.mp hc
    exact ⟨r, hr, hj⟩
  · rintro ⟨r, hr, hj⟩
    exact ⟨negTail r top_n, by rw [hr]; rfl, hj⟩

/-- `_make_mask` never raises for positive `top_n`, and its value is the
scatter of the pair list. -/
lemma make_mask_some {A : List (List ℕ)} {top_n : ℕ} {M : List (List Bool)}
    (h : _make_mask A top_n = some M) :
    M = A.enum.map (fun p =>
      (List.range p.2.length).map (fun j => decide ((p.1, j) ∈ maskPairs A top_n))) := by
  rw [_make_mask] at h
  split at h
  · exact Option.noConfusion h
  · exact (Option.some.inj h).symm

/-- With `min_labels = 0`, a non-empty probability matrix with a positive
class count makes `_make_mask` raise `ZeroDivisionError` (modelled `none`),
hence `binarize_prediction` propagates the error. -/
lemma binarize_zero_min {nClasses : ℕ} {P : List (List ℚ)} {t : ℚ} {mx : ℕ}
    (huni : ∀ r ∈ P, r.length = nClasses) (hP : P ≠ []) (hnC : nClasses ≠ 0) :
    binarize_prediction nClasses P t 0 mx = none := by
  have hmask : _make_mask (P.map argsortRow) 0 = none := by
    rw [_make_mask, if_pos]
    refine ⟨rfl, ?_⟩
    intro hcontra
    rw [flatCols, List.flatten_eq_nil_iff] at hcontra
    obtain ⟨r, hr⟩ := List.exists_mem_of_ne_nil P hP
    have hmem : negTail (argsortRow r) 0 ∈ (P.map argsortRow).map (fun a => negTail a 0) :=
      List.mem_map.mpr ⟨argsortRow r, List.mem_map.mpr ⟨r, hr, rfl⟩, rfl⟩
    have hnil := hcontra _ hmem
    rw [negTail, if_pos rfl] at hnil
    have := argsortRow_length r
    rw [hnil, huni r hr] at this
    exact hnC this.symm
  rw [binarize_prediction, if_pos huni, hmask]
  rcases _make_mask (P.map argsortRow) mx with _ | m
  · rfl
  · rfl

/-- Structure of a successful binarization: the input was uniform with the
expected class count, the output has one row per input row, and row i marks
column j iff (j is scattered by the max mask and the probability exceeds the
threshold) or j is scattered by the min mask. -/
lemma binarize_rows {nClasses : ℕ} {P : List (List ℚ)} {t : ℚ} {mn mx : ℕ}
    {R : List (List Bool)}
    (hR : binarize_prediction nClasses P t mn mx = some R) :
    (∀ r ∈ P, r.length = nClasses) ∧ R.length = P.length ∧
    ∀ i : ℕ, i < P.length →
      R.getD i [] = (List.range nClasses).map (fun j =>
        (decide ((i, j) ∈ maskPairs (P.map argsortRow) mx) &&
          decide (t < (P.getD i []).getD j 0)) ||
        decide ((i, j) ∈ maskPairs (P.map argsortRow) mn)) := by
  have huni : ∀ r ∈ P, r.length = nClasses := by
    by_contra h
    rw [binarize_prediction, if_neg h] at hR
    exact Option.noConfusion hR
  rw [binarize_prediction, if_pos huni] at hR
  rcases hmax : _make_mask (P.map argsortRow) mx with _ | maxM <;>
    rcases hmin : _make_mask (P.map argsortRow) mn with _ | minM <;>
    rw [hmax, hmin] at hR <;>
    dsimp only at hR
  · exact Option.noConfusion hR
  · exact Option.noConfusion hR
  · exact Option.noConfusion hR
  obtain rfl := (Option.some.inj hR).symm
  obtain rfl := make_mask_some hmax
  obtain rfl := make_mask_some hmin
  refine ⟨huni, by simp, ?_⟩
  intro i hi
  have hRlen : i < (List.zipWith (List.zipWith (fun a b => a || b))
      (List.zipWith (List.zipWith (fun a b => a && b))
        ((P.map argsortRow).enum.map (fun p =>
          (List.range p.2.length).map (fun j =>
            decide ((p.1, j) ∈ maskPairs (P.map argsortRow) mx))))
        (P.map (fun r => r.map (fun p => decide (t < p)))))
      ((P.map argsortRow).enum.map (fun p =>
        (List.range p.2.length).map (fun j =>
          decide ((p.1, j) ∈ maskPairs (P.map argsortRow) mn))))).length := by
    simpa using hi
  rw [List.getD_eq_getElem _ _ hRlen]
  simp only [List.getElem_zipWith, List.getElem_map, List.getElem_enum]
  have hAlen : (argsortRow (P[i])).length = nClasses := by
    rw [argsortRow_length]
    exact huni _ (List.getElem_mem hi)
  have hPi : (P.getD i []) = P[i] := List.getD_eq_getElem _ _ hi
  have hprob : (P[i]).map (fun p => decide (t < p)) =
      (List.range nClasses).map (fun j => decide (t < (P.getD i []).getD j 0)) := by
    rw [map_eq_range_map (fun p => decide (t < p)) 0 (P[i])]
    rw [show (P[i]).length = nClasses from huni _ (List.getElem_mem hi)]
    rw [hPi]
  rw [hAlen, hprob, zipWith_map_same, zipWith_map_same]

lemma countOnes_range_map (C : ℕ) (f : ℕ → Bool) :
    countOnes ((List.range C).map f) = (List.range C).countP f := by
  rw [countOnes, List.countP_map]
  rfl

lemma argsort_map_rows {nClasses : ℕ} {P : List (List ℚ)}
    (huni : ∀ r ∈ P, r.length = nClasses) :
    ∀ r ∈ P.map argsortRow, r.length = nClasses := by
  intro r hr
  obtain ⟨q, hq, rfl⟩ := List.mem_map.mp hr
  rw [argsortRow_length]
  exact huni q hq

/-- Any successful binarization with `min_labels ≤ max_labels` has at most
`max_labels` ones per row. -/
lemma binarize_upper {nClasses : ℕ} {P : List (List ℚ)} {t : ℚ} {mn mx : ℕ}
    {R : List (List Bool)} (hmnx : mn ≤ mx)
    (hR : binarize_prediction nClasses P t mn mx = some R) :
    ∀ row ∈ R, countOnes row ≤ mx := by
  obtain ⟨huni, hlen, hrows⟩ := binarize_rows hR
  intro row hrow
  obtain ⟨i, hiR, rfl⟩ := List.mem_iff_getElem.mp hrow
  have hi : i < P.length := by omega
  rw [← List.getD_eq_getElem _ _ hiR, hrows i hi, countOnes_range_map]
  rcases le_or_lt nClasses mx with hcase | hcase
  · calc ((List.range nClasses).countP _) ≤ (List.range nClasses).length :=
      List.countP_le_length _
    _ = nClasses := List.length_range _
    _ ≤ mx := hcase
  · have hPne : P ≠ [] := by
      intro h
      rw [h] at hi
      simp at hi
    have hnC : nClasses ≠ 0 := by omega
    have hmn0 : mn ≠ 0 := by
      intro h0
      rw [h0] at hR
      rw [binarize_zero_min huni hPne hnC] at hR
      exact Option.noConfusion hR
    have hmx0 : mx ≠ 0 := by omega
    have hmxC : mx ≤ nClasses := le_of_lt hcase
    have hmnC : mn ≤ nClasses := by omega
    have hArows := argsort_map_rows huni
    have hAi : (P.map argsortRow)[i]? = some (argsortRow (P[i])) := by
      simp [hi]
    have hsub : ∀ j ∈ List.range nClasses,
        ((decide ((i, j) ∈ maskPairs (P.map argsortRow) mx) &&
          decide (t < (P.getD i []).getD j 0)) ||
        decide ((i, j) ∈ maskPairs (P.map argsortRow) mn)) = true →
        (decide (j ∈ negTail (argsortRow (P[i])) mx)) = true := by
      intro j hj hpred
      apply decide_eq_true
      rcases Bool.or_eq_true_iff.mp hpred with h | h
      · have hmem := of_decide_eq_true (Bool.and_eq_true_iff.mp h).1
        obtain ⟨r, hr, hjr⟩ := (maskPairs_clean hmx0 hmxC hArows i j).mp hmem
        rw [hAi] at hr
        obtain rfl := Option.some.inj hr
        exact hjr
      · have hmem := of_decide_eq_true h
        obtain ⟨r, hr, hjr⟩ := (maskPairs_clean hmn0 hmnC hArows i j).mp hmem
        rw [hAi] at hr
        obtain rfl := Option.some.inj hr
        exact negTail_mono _ hmn0 hmnx hjr
    refine le_trans (List.countP_mono_left hsub) ?_
    rw [countP_range_mem
        ((negTail_sublist _ _).nodup (argsortRow_nodup _))
        (fun x hx => by
          have hxlt := argsortRow_mem_lt (negTail_subset _ _ hx)
          rwa [huni _ (List.getElem_mem hi)] at hxlt),
      negTail_length hmx0
        (by rw [argsortRow_length, huni _ (List.getElem_mem hi)]; exact hmxC)]

/-- Any successful binarization with `1 ≤ min_labels ≤ nClasses` has at least
`min_labels` ones per row. -/
lemma binarize_lower {nClasses : ℕ} {P : List (List ℚ)} {t : ℚ} {mn mx : ℕ}
    {R : List (List Bool)} (hmn0 : mn ≠ 0) (hmnC : mn ≤ nClasses)
    (hR : binarize_prediction nClasses P t mn mx = some R) :
    ∀ row ∈ R, mn ≤ countOnes row := by
  obtain ⟨huni, hlen, hrows⟩ := binarize_rows hR
  intro row hrow
  obtain ⟨i, hiR, rfl⟩ := List.mem_iff_getElem.mp hrow
  have hi : i < P.length := by omega
  rw [← List.getD_eq_getElem _ _ hiR, hrows i hi, countOnes_range_map]
  have hArows := argsort_map_rows huni
  have hAi : (P.map argsortRow)[i]? = some (argsortRow (P[i])) := by
    simp [hi]
  have hsub : ∀ j ∈ List.range nClasses,
      (decide (j ∈ negTail (argsortRow (P[i])) mn)) = true →
      ((decide ((i, j) ∈ maskPairs (P.map argsortRow) mx) &&
        decide (t < (P.getD i []).getD j 0)) ||
      decide ((i, j) ∈ maskPairs (P.map argsortRow) mn)) = true := by
    intro j hj hmem
    have hpair : (i, j) ∈ maskPairs (P.map argsortRow) mn :=
      (maskPairs_clean hmn0 hmnC hArows i j).mpr
        ⟨argsortRow (P[i]), hAi, of_decide_eq_true hmem⟩
    rw [Bool.or_eq_true_iff]
    exact Or.inr (decide_eq_true hpair)
  have hge := List.countP_mono_left hsub
  rw [countP_range_mem
      ((negTail_sublist _ _).nodup (argsortRow_nodup _))
      (fun x hx => by
        have hxlt := argsortRow_mem_lt (negTail_subset _ _ hx)
        rwa [huni _ (List.getElem_mem hi)] at hxlt),
    negTail_length hmn0
      (by rw [argsortRow_length, huni _ (List.getElem_mem hi)]; exact hmnC)] at hge
  exact hge

/-- Claim C1 (amended): for every probability matrix accepted by the class
count assertion, every threshold, and every `min_labels`, `max_labels` with
1 ≤ min_labels ≤ max_labels AND min_labels ≤ class count, each row of the
binarized matrix contains between `min_labels` and `max_labels` ones
inclusive. -/
theorem C1_row_count_bounds (nClasses : ℕ) (P : List (List ℚ)) (t : ℚ) (mn mx : ℕ)
    (R : List (List Bool)) (h1 : 1 ≤ mn) (h2 : mn ≤ mx) (h3 : mn ≤ nClasses)
    (hR : binarize_prediction nClasses P t mn mx = some R) :
    ∀ row ∈ R, mn ≤ countOnes row ∧ countOnes row ≤ mx :=
  fun row hrow =>
    ⟨binarize_lower (by omega) h3 hR row hrow, binarize_upper h2 hR row hrow⟩

/-- Witness for C1 (amended) on the spec's end-to-end scenario: probabilities
[[0.9, 0.2, 0.05], [0.1, 0.1, 0.1]], threshold 0.15, min_labels = 1,
max_labels = 2; the binarized output is [[1,1,0],[0,0,1]] (the all-tied second
row selects class 2) and its second row has exactly one 1. -/
theorem C1_row_count_bounds_witness :
    1 ≤ countOnes [false, false, true] ∧ countOnes [false, false, true] ≤ 2 :=
  C1_row_count_bounds 3
    [[mkRat 9 10, mkRat 2 10, mkRat 1 20], [mkRat 1 10, mkRat 1 10, mkRat 1 10]]
    (mkRat 3 20) 1 2 [[true, true, false], [false, false, true]]
    (by decide) (by decide) (by decide) (by decide)
    [false, false, true] (by decide)

/-- Counterexample to C1 as stated: with one column (class count 1) and
min_labels = max_labels = 2 (which satisfies 1 ≤ min_labels ≤ max_labels),
the returned row contains a single 1 — fewer than `min_labels`.  A row of C
columns can never hold more than C ones, so the claim needs
min_labels ≤ class count. -/
theorem C1_counterexample :
    binarize_prediction 1 [[mkRat 1 2]] 0 2 2 = some [[true]] ∧
    ¬ (2 ≤ countOnes [true]) := by
  constructor
  · decide
  · decide

/-- Claim C2 (amended): for a fixed probability matrix and fixed
min_labels/max_labels, if t1 ≤ t2 then each row of the binarization at t1 has
at least as many ones as the same row at t2; and provided
min_labels ≤ max_labels the count is bounded above by max_labels. -/
theorem C2_threshold_monotone (nClasses : ℕ) (P : List (List ℚ)) (t1 t2 : ℚ)
    (mn mx : ℕ) (R1 R2 : List (List Bool)) (ht : t1 ≤ t2)
    (h1 : binarize_prediction nClasses P t1 mn mx = some R1)
    (h2 : binarize_prediction nClasses P t2 mn mx = some R2) :
    (∀ i : ℕ, countOnes (R2.getD i []) ≤ countOnes (R1.getD i [])) ∧
    (mn ≤ mx → ∀ row ∈ R1, countOnes row ≤ mx) := by
  obtain ⟨huni1, hlen1, hrows1⟩ := binarize_rows h1
  obtain ⟨huni2, hlen2, hrows2⟩ := binarize_rows h2
  constructor
  · intro i
    rcases lt_or_le i P.length with hi | hi
    · rw [hrows1 i hi, hrows2 i hi, countOnes_range_map, countOnes_range_map]
      apply List.countP_mono_left
      intro j hj hpred
      rcases Bool.or_eq_true_iff.mp hpred with h | h
      · obtain ⟨hb, hx⟩ := Bool.and_eq_true_iff.mp h
        have hlt : t1 < (P.getD i []).getD j 0 :=
          lt_of_le_of_lt ht (of_decide_eq_true hx)
        rw [Bool.or_eq_true_iff]
        exact Or.inl (Bool.and_eq_true_iff.mpr ⟨hb, decide_eq_true hlt⟩)
      · rw [Bool.or_eq_true_iff]
        exact Or.inr h
    · have e2 : R2.getD i [] = [] := by
        apply List.getD_eq_default
        omega
      have e1 : R1.getD i [] = [] := by
        apply List.getD_eq_default
        omega
      rw [e1, e2]
  · intro hmnx
    exact binarize_upper hmnx h1

/-- Witness for C2 (amended): one row [0.9, 0.2, 0.05], thresholds 0.1 ≤ 0.5,
min_labels = 1, max_labels = 2: the lower threshold selects {0, 1}, the higher
only {0}. -/
theorem C2_threshold_monotone_witness :
    countOnes ([[true, false, false]].getD 0 []) ≤
      countOnes ([[true, true, false]].getD 0 []) :=
  (C2_threshold_monotone 3 [[mkRat 9 10, mkRat 2 10, mkRat 1 20]]
    (mkRat 1 10) (mkRat 1 2) 1 2
    [[true, true, false]] [[true, false, false]]
    (by decide) (by decide) (by decide)).1 0

/-- Counterexample to C2 as stated: the claim quantifies over every fixed
min_labels/max_labels, but with min_labels = 2 > max_labels = 1 the lower
mask forces two ones in a row, exceeding `max_labels` — the bound needs
min_labels ≤ max_labels. -/
theorem C2_counterexample :
    binarize_prediction 2 [[mkRat 1 3, mkRat 2 3]] 0 2 1 = some [[true, true]] ∧
    ¬ (countOnes [true, true] ≤ 1) := by
  constructor
  · decide
  · decide

end IMet
